import Mathlib

/-!
# Verification of the hx-lsp core against its specification

Shallow embedding of the hx-lsp language-server core:

* `src/encoding.rs` — position decoding (`lsp_pos_to_pos`) over a rope,
  parameterized by one of three offset encodings (UTF-8 / UTF-16 / UTF-32);
* `src/state.rs`    — the document store (`State`), its change application,
  content hashing, and the color/action caches;
* `src/action.rs`   — the shell command executor (`shell_impl_async`).

A document is modelled as a `List Char` (ropey's sequence of Unicode scalar
values).  Line splitting follows ropey without its `unicode_lines` feature,
i.e. lines break after each `'\n'` (so `"\r\n"` is a two-char terminator of
the same line); hx-lsp's own `LineEnding` is modelled without the crate's
`unicode-lines` feature, recognizing `LF` and `CRLF`, matching the default
feature configuration documented in `encoding.rs`'s comments.
-/

namespace HxLsp

/-- Documents are sequences of Unicode scalar values (ropey char indices). -/
abbrev Doc := List Char

/-- UTF-8 code-unit (byte) width of one scalar value
(`char::len_utf8` in Rust). -/
def utf8Size (c : Char) : Nat :=
  if c.toNat < 0x80 then 1
  else if c.toNat < 0x800 then 2
  else if c.toNat < 0x10000 then 3
  else 4

/-- UTF-16 code-unit width of one scalar value (`char::len_utf16`). -/
def utf16Size (c : Char) : Nat :=
  if c.toNat < 0x10000 then 1 else 2

/-- UTF-32 code-unit width of one scalar value: always one. -/
def utf32Size (_ : Char) : Nat := 1

/-- Total length of a char sequence measured in `sz`-code units. -/
def unitLen (sz : Char → Nat) (s : Doc) : Nat := (s.map sz).sum

/-- `OffsetEncoding` from `src/encoding.rs`. -/
inductive OffsetEncoding where
  | utf8
  | utf32
  | utf16
deriving DecidableEq, Repr

/-- Code-unit width function selected by an offset encoding. -/
def encSize : OffsetEncoding → Char → Nat
  | .utf8 => utf8Size
  | .utf16 => utf16Size
  | .utf32 => utf32Size

/-- Split a document into its lines, ropey-style: every line except possibly
the last ends with `'\n'`, the terminator belongs to the line it ends, and a
document always has at least one (possibly empty) line. -/
def splitLines : Doc → List Doc
  | [] => [[]]
  | c :: rest =>
    let r := splitLines rest
    if c = '\n' then [c] :: r
    else
      match r with
      | [] => [[c]]
      | l :: ls => (c :: l) :: ls

/-- `Rope::len_lines`. -/
def numLines (doc : Doc) : Nat := (splitLines doc).length

/-- The chars that precede line `i` (concatenation of the first `i` lines). -/
def linesBefore (doc : Doc) (i : Nat) : Doc := ((splitLines doc).take i).flatten

/-- `Rope::line_to_char`. -/
def lineToChar (doc : Doc) (i : Nat) : Nat := (linesBefore doc i).length

/-- `Rope::line(i)` (with ropey's convention that the line includes its
terminator). Out-of-range indices yield the empty line. -/
def lineAt (doc : Doc) (i : Nat) : Doc := (splitLines doc).getD i []

/-- The line terminator recognized by hx-lsp's `get_line_ending`
(`src/encoding.rs`): the last two chars if they are `"\r\n"`, else the last
char if it is `'\n'`, else nothing. -/
def lineEnding (l : Doc) : Doc :=
  match l.reverse with
  | c0 :: c1 :: _ =>
    if c0 = '\n' then (if c1 = '\r' then ['\r', '\n'] else ['\n']) else []
  | [c0] => if c0 = '\n' then ['\n'] else []
  | [] => []

/-- `LineEnding::len_chars` of the detected ending (0 when there is none). -/
def lineEndingLenChars (l : Doc) : Nat := (lineEnding l).length

/-- A line (as produced by ropey) without its terminator. -/
def lineContentOf (l : Doc) : Doc := l.take (l.length - lineEndingLenChars l)

/-- Line `i` without its terminator (`line_without_line_ending`). -/
def lineContent (doc : Doc) (i : Nat) : Doc := lineContentOf (lineAt doc i)

/-- `line_end_char_index` from `src/encoding.rs`: char index of the end of
line `i`, not including its line ending. -/
def lineEndCharIndex (doc : Doc) (i : Nat) : Nat :=
  lineToChar doc (i + 1) - lineEndingLenChars (lineAt doc i)

/-- `Rope::line_to_byte`. -/
def lineToByte (doc : Doc) (i : Nat) : Nat := unitLen utf8Size (linesBefore doc i)

/-- `line_end_byte_index` from `src/encoding.rs` (both recognized endings,
`"\r\n"` and `"\n"`, occupy as many bytes as chars). -/
def lineEndByteIndex (doc : Doc) (i : Nat) : Nat :=
  lineToByte doc (i + 1) - lineEndingLenChars (lineAt doc i)

/-- `Rope::char_to_utf16_cu`. -/
def charToUtf16 (doc : Doc) (i : Nat) : Nat := unitLen utf16Size (doc.take i)

/-- Unit-index-to-char-index conversion shared by ropey's `byte_to_char` and
`utf16_cu_to_char`: a unit offset falling strictly inside a scalar's units
resolves to the index of the scalar containing it (floor to a boundary). -/
def unitToChar (sz : Char → Nat) : Doc → Nat → Nat
  | [], _ => 0
  | c :: rest, u => if u < sz c then 0 else 1 + unitToChar sz rest (u - sz c)

/-- `Rope::try_byte_to_char`: errors exactly when the byte index is past the
end of the document. -/
def tryByteToChar (doc : Doc) (b : Nat) : Option Nat :=
  if b ≤ unitLen utf8Size doc then some (unitToChar utf8Size doc b) else none

/-- `Rope::try_utf16_cu_to_char`. -/
def tryUtf16ToChar (doc : Doc) (u : Nat) : Option Nat :=
  if u ≤ unitLen utf16Size doc then some (unitToChar utf16Size doc u) else none

/-- `lsp_pos_to_pos` from `src/encoding.rs`: decode an LSP `(line, character)`
position into a char offset.  A line past the end decodes to end-of-document;
otherwise the character offset is capped to the end of the line's content
(`pos.character as usize` cannot overflow the `checked_add` on a 64-bit
target, so the `unwrap_or` recovery is dead code and plain addition is
faithful). -/
def lsp_pos_to_pos (doc : Doc) (line character : Nat)
    (enc : OffsetEncoding) : Option Nat :=
  if line > numLines doc - 1 then some doc.length
  else
    let range : Nat × Nat :=
      match enc with
      | .utf8 => (lineToByte doc line, lineEndByteIndex doc line)
      | .utf16 => (charToUtf16 doc (lineToChar doc line),
                   charToUtf16 doc (lineEndCharIndex doc line))
      | .utf32 => (lineToChar doc line, lineEndCharIndex doc line)
    let pos := min (range.1 + character) range.2
    match enc with
    | .utf8 => tryByteToChar doc pos
    | .utf16 => tryUtf16ToChar doc pos
    | .utf32 => some pos

/-- Reference pure-scalar model of in-line unit counting (from the spec's
round-trip property): `some s` exactly when the first `u` code units of `l`
are the encoding of its first `s` scalars — i.e. the unit offset lies on a
scalar boundary within `l`. -/
def unitsToScalars (sz : Char → Nat) : Doc → Nat → Option Nat
  | _, 0 => some 0
  | [], _ + 1 => none
  | c :: rest, u + 1 =>
    if sz c ≤ u + 1 then (unitsToScalars sz rest (u + 1 - sz c)).map (· + 1)
    else none

/-- Reference pure-scalar decoder, following the spec's standard line/unit
semantics: the position must name an existing line and a unit offset on a
scalar boundary within that line's content (terminator excluded); the result
is the absolute scalar offset of that boundary. -/
def specDecode (doc : Doc) (line character : Nat)
    (enc : OffsetEncoding) : Option Nat :=
  if line < numLines doc then
    (unitsToScalars (encSize enc) (lineContent doc line) character).map
      (lineToChar doc line + ·)
  else none

/-! ## Structural lemmas about the line model -/

theorem splitLines_ne_nil (doc : Doc) : splitLines doc ≠ [] := by
  cases doc with
  | nil => simp [splitLines]
  | cons c rest =>
    simp only [splitLines]
    split
    · simp
    · match h : splitLines rest with
      | [] => simp
      | l :: ls => simp

theorem numLines_pos (doc : Doc) : 1 ≤ numLines doc := by
  have h := splitLines_ne_nil doc
  simp only [numLines]
  exact List.length_pos.mpr h

theorem splitLines_flatten (doc : Doc) : (splitLines doc).flatten = doc := by
  induction doc with
  | nil => simp [splitLines]
  | cons c rest ih =>
    simp only [splitLines]
    split
    · simp only [List.flatten_cons]
      rename_i hc
      rw [hc, List.singleton_append, ih]
    · match h : splitLines rest with
      | [] => exact absurd h (splitLines_ne_nil rest)
      | l :: ls =>
        rw [h] at ih
        simp only [List.flatten_cons] at ih ⊢
        rw [List.cons_append, ih]

theorem lineContentOf_append_ending (l : Doc) :
    lineContentOf l ++ lineEnding l = l := by
  rcases hr : l.reverse with _ | ⟨c0, t0⟩
  · have hl : l = [] := by simpa using congrArg List.reverse hr
    subst hl; rfl
  · have hl : l = t0.reverse ++ [c0] := by
      have := congrArg List.reverse hr
      simpa using this
    rcases t0 with _ | ⟨c1, t1⟩
    · -- single-char line
      simp only [List.reverse_nil, List.nil_append] at hl
      subst hl
      simp only [lineContentOf, lineEnding, List.reverse_cons, List.reverse_nil,
        List.nil_append, lineEndingLenChars]
      by_cases h0 : c0 = '\n' <;> simp [h0]
    · have hl2 : l = t1.reverse ++ [c1, c0] := by
        simpa using hl
      by_cases h0 : c0 = '\n'
      · by_cases h1 : c1 = '\r'
        · have hend : lineEnding l = ['\r', '\n'] := by
            simp [lineEnding, hr, h0, h1]
          subst h0; subst h1
          simp only [lineContentOf, lineEndingLenChars, hend]
          rw [hl2]
          have hlen : (t1.reverse ++ ['\r', '\n']).length -
              (['\r', '\n'] : List Char).length = t1.reverse.length := by
            simp
          rw [hlen, List.take_left]
        · have hend : lineEnding l = ['\n'] := by
            simp [lineEnding, hr, h0, h1]
          subst h0
          simp only [lineContentOf, lineEndingLenChars, hend]
          rw [hl2]
          have hsplit : t1.reverse ++ [c1, '\n'] = (t1.reverse ++ [c1]) ++ ['\n'] := by
            simp
          rw [hsplit]
          have hlen : ((t1.reverse ++ [c1]) ++ ['\n']).length -
              (['\n'] : List Char).length = (t1.reverse ++ [c1]).length := by simp
          rw [hlen, List.take_left]
      · have hend : lineEnding l = [] := by
          simp [lineEnding, hr, h0]
        simp only [lineContentOf, lineEndingLenChars, hend]
        simp [List.take_length]

theorem lineEnding_cases (l : Doc) :
    lineEnding l = [] ∨ lineEnding l = ['\n'] ∨ lineEnding l = ['\r', '\n'] := by
  rcases hr : l.reverse with _ | ⟨c0, t0⟩
  · simp [lineEnding, hr]
  · rcases t0 with _ | ⟨c1, t1⟩
    · by_cases h0 : c0 = '\n' <;> simp [lineEnding, hr, h0]
    · by_cases h0 : c0 = '\n'
      · by_cases h1 : c1 = '\r' <;> simp [lineEnding, hr, h0, h1]
      · simp [lineEnding, hr, h0]

theorem lineEndingLenChars_le (l : Doc) : lineEndingLenChars l ≤ l.length := by
  have h := congrArg List.length (lineContentOf_append_ending l)
  simp only [List.length_append] at h
  have h2 : lineEndingLenChars l = (lineEnding l).length := rfl
  omega

theorem lineContentOf_length (l : Doc) :
    (lineContentOf l).length = l.length - lineEndingLenChars l := by
  simp only [lineContentOf]
  simp [lineEndingLenChars_le l]

theorem lineAt_eq_getElem (doc : Doc) (i : Nat) (h : i < numLines doc) :
    lineAt doc i = (splitLines doc)[i] := by
  exact List.getD_eq_getElem _ _ h

theorem linesBefore_succ (doc : Doc) (i : Nat) (h : i < numLines doc) :
    linesBefore doc (i + 1) = linesBefore doc i ++ lineAt doc i := by
  have h' : i < (splitLines doc).length := h
  simp only [linesBefore]
  rw [List.take_succ, List.getElem?_eq_getElem h', List.flatten_append,
    lineAt_eq_getElem doc i h]
  simp

theorem lineToChar_succ (doc : Doc) (i : Nat) (h : i < numLines doc) :
    lineToChar doc (i + 1) = lineToChar doc i + (lineAt doc i).length := by
  simp only [lineToChar]
  rw [linesBefore_succ doc i h]
  simp

theorem doc_decomp (doc : Doc) (i : Nat) (h : i < numLines doc) :
    doc = linesBefore doc i ++
      (lineAt doc i ++ ((splitLines doc).drop (i + 1)).flatten) := by
  conv_lhs => rw [← splitLines_flatten doc]
  conv_lhs => rw [← List.take_append_drop i (splitLines doc)]
  rw [List.flatten_append]
  congr 1
  rw [List.drop_eq_getElem_cons h, List.flatten_cons, lineAt_eq_getElem doc i h]

theorem lineToChar_le (doc : Doc) (i : Nat) : lineToChar doc i ≤ doc.length := by
  by_cases h : i ≤ (splitLines doc).length
  · conv_rhs => rw [← splitLines_flatten doc]
    conv_rhs => rw [← List.take_append_drop i (splitLines doc)]
    simp only [lineToChar, linesBefore, List.flatten_append, List.length_append]
    omega
  · have : (splitLines doc).take i = splitLines doc :=
      List.take_of_length_le (by omega)
    simp only [lineToChar, linesBefore, this, splitLines_flatten]
    exact le_rfl

theorem lineEndCharIndex_eq (doc : Doc) (i : Nat) (h : i < numLines doc) :
    lineEndCharIndex doc i = lineToChar doc i + (lineContent doc i).length := by
  simp only [lineEndCharIndex, lineContent]
  rw [lineToChar_succ doc i h, lineContentOf_length]
  have := lineEndingLenChars_le (lineAt doc i)
  omega

theorem take_lineContent (doc : Doc) (i : Nat) (h : i < numLines doc)
    (s : Nat) (hs : s ≤ (lineContent doc i).length) :
    doc.take (lineToChar doc i + s) =
      linesBefore doc i ++ (lineContent doc i).take s := by
  have hd := doc_decomp doc i h
  calc
    doc.take (lineToChar doc i + s)
        = (linesBefore doc i ++
            (lineAt doc i ++ ((splitLines doc).drop (i + 1)).flatten)).take
            ((linesBefore doc i).length + s) := by rw [← hd]; rfl
    _ = linesBefore doc i ++
          (lineAt doc i ++ ((splitLines doc).drop (i + 1)).flatten).take s :=
        List.take_append s
    _ = linesBefore doc i ++ (lineContent doc i).take s := by
        congr 1
        conv_lhs =>
          rw [← lineContentOf_append_ending (lineAt doc i), List.append_assoc]
        rw [show lineContentOf (lineAt doc i) = lineContent doc i from rfl]
        rw [List.take_append_of_le_length hs]

/-! ## Unit-length and unit-to-char lemmas -/

theorem one_le_utf8Size (c : Char) : 1 ≤ utf8Size c := by
  simp only [utf8Size]
  split <;> try split <;> try split
  all_goals omega

theorem one_le_utf16Size (c : Char) : 1 ≤ utf16Size c := by
  simp only [utf16Size]
  split <;> omega

theorem one_le_utf32Size (c : Char) : 1 ≤ utf32Size c := le_rfl

theorem one_le_encSize (enc : OffsetEncoding) (c : Char) : 1 ≤ encSize enc c := by
  cases enc
  · exact one_le_utf8Size c
  · exact one_le_utf32Size c
  · exact one_le_utf16Size c

theorem unitLen_nil (sz : Char → Nat) : unitLen sz [] = 0 := rfl

theorem unitLen_cons (sz : Char → Nat) (c : Char) (l : Doc) :
    unitLen sz (c :: l) = sz c + unitLen sz l := by
  simp [unitLen]

theorem unitLen_append (sz : Char → Nat) (a b : Doc) :
    unitLen sz (a ++ b) = unitLen sz a + unitLen sz b := by
  simp [unitLen]

theorem unitLen_utf32 (s : Doc) : unitLen utf32Size s = s.length := by
  induction s with
  | nil => rfl
  | cons c rest ih => rw [unitLen_cons, ih, utf32Size]; simp [List.length_cons]; omega

theorem unitLen_take_le (sz : Char → Nat) (l : Doc) (n : Nat) :
    unitLen sz (l.take n) ≤ unitLen sz l := by
  conv_rhs => rw [← List.take_append_drop n l]
  rw [unitLen_append]
  omega

theorem unitLen_take_mono (sz : Char → Nat) (l : Doc) {m n : Nat} (h : m ≤ n) :
    unitLen sz (l.take m) ≤ unitLen sz (l.take n) := by
  have ht : (l.take n).take m = l.take m := by
    rw [List.take_take]
    congr 1
    omega
  rw [← ht]
  exact unitLen_take_le sz (l.take n) m

theorem unitToChar_zero (sz : Char → Nat) (hsz : ∀ c, 1 ≤ sz c) (l : Doc) :
    unitToChar sz l 0 = 0 := by
  cases l with
  | nil => rfl
  | cons c rest =>
    simp only [unitToChar]
    rw [if_pos]
    exact hsz c

theorem unitToChar_unitLen_take (sz : Char → Nat) (hsz : ∀ c, 1 ≤ sz c)
    (l : Doc) (k : Nat) (hk : k ≤ l.length) :
    unitToChar sz l (unitLen sz (l.take k)) = k := by
  induction l generalizing k with
  | nil =>
    simp only [List.length_nil, Nat.le_zero] at hk
    subst hk
    rfl
  | cons c rest ih =>
    cases k with
    | zero =>
      simp only [List.take_zero, unitLen_nil]
      exact unitToChar_zero sz hsz (c :: rest)
    | succ k' =>
      simp only [List.take_succ_cons, unitLen_cons, unitToChar]
      rw [if_neg (by omega)]
      have : sz c + unitLen sz (rest.take k') - sz c = unitLen sz (rest.take k') := by
        omega
      rw [this, ih k' (by simpa using hk)]
      omega

theorem unitToChar_append_exact (sz : Char → Nat) (a b : Doc) (u : Nat) :
    unitToChar sz (a ++ b) (unitLen sz a + u) = a.length + unitToChar sz b u := by
  induction a with
  | nil => simp [unitLen_nil]
  | cons c a' ih =>
    simp only [List.cons_append, unitLen_cons, unitToChar]
    rw [if_neg (by omega)]
    have : sz c + unitLen sz a' + u - sz c = unitLen sz a' + u := by omega
    rw [this]
    simp only [List.append_eq]
    rw [ih]
    simp [List.length_cons]
    omega

theorem unitToChar_prefix (sz : Char → Nat) (hsz : ∀ c, 1 ≤ sz c)
    (a b : Doc) (u : Nat) (hu : u ≤ unitLen sz a) :
    unitToChar sz (a ++ b) u = unitToChar sz a u := by
  induction a generalizing u with
  | nil =>
    simp only [unitLen_nil, Nat.le_zero] at hu
    subst hu
    rw [List.nil_append, unitToChar_zero sz hsz b]
    rfl
  | cons c a' ih =>
    by_cases hc : u < sz c
    · simp only [List.cons_append, unitToChar, if_pos hc]
    · simp only [List.cons_append, unitToChar, if_neg hc]
      rw [unitLen_cons] at hu
      simp only [List.append_eq]
      rw [ih (u - sz c) (by omega)]

/-! ## The reference model's unit counting -/

theorem unitsToScalars_some (sz : Char → Nat)
    (l : Doc) (u s : Nat) (h : unitsToScalars sz l u = some s) :
    s ≤ l.length ∧ unitLen sz (l.take s) = u := by
  induction l generalizing u s with
  | nil =>
    cases u with
    | zero =>
      simp only [unitsToScalars, Option.some.injEq] at h
      subst h
      simp [unitLen_nil]
    | succ u' => exact absurd h (by simp [unitsToScalars])
  | cons c rest ih =>
    cases u with
    | zero =>
      simp only [unitsToScalars, Option.some.injEq] at h
      subst h
      simp [unitLen_nil]
    | succ u' =>
      simp only [unitsToScalars] at h
      split at h
      · rename_i hle
        rcases Option.map_eq_some'.mp h with ⟨s', hs', rfl⟩
        obtain ⟨hlen, hunit⟩ := ih (u' + 1 - sz c) s' hs'
        constructor
        · simpa using Nat.succ_le_succ hlen
        · rw [List.take_succ_cons, unitLen_cons, hunit]
          omega
      · exact absurd h (by simp)

/-! ## C1: the decoder agrees with the reference pure-scalar model -/

theorem charToUtf16_lineStart (doc : Doc) (l : Nat) (hl : l < numLines doc) :
    doc.take (lineToChar doc l) = linesBefore doc l := by
  have h := take_lineContent doc l hl 0 (Nat.zero_le _)
  simpa using h

theorem unitLen_lineEnding (l : Doc) :
    unitLen utf8Size (lineEnding l) = lineEndingLenChars l := by
  rcases lineEnding_cases l with h | h | h <;>
    simp [lineEndingLenChars, h, unitLen, utf8Size]

theorem lineEndByteIndex_eq (doc : Doc) (l : Nat) (hl : l < numLines doc) :
    lineEndByteIndex doc l =
      unitLen utf8Size (linesBefore doc l) +
        unitLen utf8Size (lineContent doc l) := by
  have h1 : lineToByte doc (l + 1) =
      unitLen utf8Size (linesBefore doc l) + unitLen utf8Size (lineAt doc l) := by
    simp only [lineToByte]
    rw [linesBefore_succ doc l hl, unitLen_append]
  have h2 : unitLen utf8Size (lineAt doc l) =
      unitLen utf8Size (lineContent doc l) + lineEndingLenChars (lineAt doc l) := by
    conv_lhs => rw [← lineContentOf_append_ending (lineAt doc l)]
    rw [unitLen_append, unitLen_lineEnding]
    rfl
  simp only [lineEndByteIndex]
  omega

theorem unitLen_take_lineEnd (sz : Char → Nat) (doc : Doc) (l : Nat)
    (hl : l < numLines doc) :
    unitLen sz (doc.take (lineEndCharIndex doc l)) =
      unitLen sz (linesBefore doc l) + unitLen sz (lineContent doc l) := by
  rw [lineEndCharIndex_eq doc l hl,
    take_lineContent doc l hl _ le_rfl, List.take_length, unitLen_append]

theorem lineEnd_le_length (doc : Doc) (l : Nat) (hl : l < numLines doc) :
    lineToChar doc l + (lineContent doc l).length ≤ doc.length := by
  have h1 := lineEndCharIndex_eq doc l hl
  have h2 := lineToChar_le doc (l + 1)
  simp only [lineEndCharIndex] at h1
  omega

/-- C1: for every document and every position `(line, unit_offset)` that lies
within document bounds (the line exists and the unit offset falls on a scalar
boundary inside the line's content), and for each of the three offset
encodings, `lsp_pos_to_pos` returns exactly the absolute scalar offset that
the reference pure-scalar model `specDecode` assigns. -/
theorem lsp_pos_to_pos_refines_spec (doc : Doc) (l ch : Nat)
    (enc : OffsetEncoding) (off : Nat)
    (h : specDecode doc l ch enc = some off) :
    lsp_pos_to_pos doc l ch enc = some off := by
  rw [specDecode] at h
  split at h
  case isFalse => simp at h
  case isTrue hl =>
  rcases Option.map_eq_some'.mp h with ⟨s, hs, hoff⟩
  obtain ⟨hsle, hu⟩ := unitsToScalars_some (encSize enc) _ ch s hs
  have hnum := numLines_pos doc
  have hcond : ¬(l > numLines doc - 1) := by omega
  have hLEI := lineEndCharIndex_eq doc l hl
  have hdoclen := lineEnd_le_length doc l hl
  rw [lsp_pos_to_pos.eq_def, if_neg hcond]
  cases enc with
  | utf32 =>
    dsimp only
    have hch : ch = s := by
      rw [encSize] at hu
      rw [unitLen_utf32, List.length_take] at hu
      omega
    rw [hLEI]
    have hmin : min (lineToChar doc l + ch) (lineToChar doc l +
        (lineContent doc l).length) = lineToChar doc l + s := by
      omega
    rw [hmin, hoff]
  | utf16 =>
    dsimp only
    rw [encSize] at hu
    have hB : charToUtf16 doc (lineToChar doc l) =
        unitLen utf16Size (linesBefore doc l) := by
      rw [charToUtf16, charToUtf16_lineStart doc l hl]
    have hE : charToUtf16 doc (lineEndCharIndex doc l) =
        unitLen utf16Size (linesBefore doc l) +
          unitLen utf16Size (lineContent doc l) :=
      unitLen_take_lineEnd utf16Size doc l hl
    have hch : ch ≤ unitLen utf16Size (lineContent doc l) := by
      rw [← hu]
      exact unitLen_take_le _ _ _
    have hpos : unitLen utf16Size (linesBefore doc l) + ch =
        unitLen utf16Size (doc.take (lineToChar doc l + s)) := by
      rw [take_lineContent doc l hl s hsle, unitLen_append, hu]
    have hmin : min (unitLen utf16Size (linesBefore doc l) + ch)
        (unitLen utf16Size (linesBefore doc l) +
          unitLen utf16Size (lineContent doc l)) =
        unitLen utf16Size (linesBefore doc l) + ch := by omega
    rw [hB, hE, hmin, hpos, tryUtf16ToChar,
      if_pos (unitLen_take_le utf16Size doc _),
      unitToChar_unitLen_take utf16Size one_le_utf16Size doc
        (lineToChar doc l + s) (by omega), hoff]
  | utf8 =>
    dsimp only
    rw [encSize] at hu
    have hB : lineToByte doc l = unitLen utf8Size (linesBefore doc l) := rfl
    have hE := lineEndByteIndex_eq doc l hl
    have hch : ch ≤ unitLen utf8Size (lineContent doc l) := by
      rw [← hu]
      exact unitLen_take_le _ _ _
    have hpos : unitLen utf8Size (linesBefore doc l) + ch =
        unitLen utf8Size (doc.take (lineToChar doc l + s)) := by
      rw [take_lineContent doc l hl s hsle, unitLen_append, hu]
    have hmin : min (unitLen utf8Size (linesBefore doc l) + ch)
        (unitLen utf8Size (linesBefore doc l) +
          unitLen utf8Size (lineContent doc l)) =
        unitLen utf8Size (linesBefore doc l) + ch := by omega
    rw [hB, hE, hmin, hpos, tryByteToChar,
      if_pos (unitLen_take_le utf8Size doc _),
      unitToChar_unitLen_take utf8Size one_le_utf8Size doc
        (lineToChar doc l + s) (by omega), hoff]

/-- Witness for C1 at the spec's scenario: document `"hello\nworld"`,
`decode(line=1, char=2, utf-16)` yields scalar offset 8. -/
theorem lsp_pos_to_pos_refines_spec_witness :
    specDecode ("hello\nworld".toList) 1 2 .utf16 = some 8 ∧
      lsp_pos_to_pos ("hello\nworld".toList) 1 2 .utf16 = some 8 :=
  ⟨by decide, lsp_pos_to_pos_refines_spec _ 1 2 _ 8 (by decide)⟩

/-! ## C2: out-of-line offsets are clamped, not rejected -/

theorem unitToChar_middle (sz : Char → Nat) (hsz : ∀ c, 1 ≤ sz c)
    (A C X : Doc) (ch : Nat) (hch : ch ≤ unitLen sz C) :
    unitToChar sz (A ++ (C ++ X)) (unitLen sz A + ch) =
      A.length + unitToChar sz C ch := by
  rw [unitToChar_append_exact, unitToChar_prefix sz hsz C X ch hch]

theorem doc_decomp_content (doc : Doc) (l : Nat) (hl : l < numLines doc) :
    doc = linesBefore doc l ++ (lineContent doc l ++
      (lineEnding (lineAt doc l) ++ ((splitLines doc).drop (l + 1)).flatten)) := by
  have hd := doc_decomp doc l hl
  conv_lhs => rw [hd]
  congr 1
  rw [← List.append_assoc]
  rw [show lineContent doc l = lineContentOf (lineAt doc l) from rfl]
  rw [lineContentOf_append_ending]

/-- C2 (amended): for an in-bounds line, a unit offset at or beyond the end
of the line's content is clamped to the end of the line's content — for each
of the three offset encodings `lsp_pos_to_pos` returns
`some (lineEndCharIndex)`, never a typed error; and under UTF-16, an offset
that lands strictly inside one scalar's code units (in particular inside a
surrogate pair) resolves to the index of the scalar containing it, rather
than erroring. -/
theorem lsp_pos_to_pos_clamps (doc : Doc) (l ch : Nat) (hl : l < numLines doc) :
    (∀ enc : OffsetEncoding,
      unitLen (encSize enc) (lineContent doc l) ≤ ch →
        lsp_pos_to_pos doc l ch enc = some (lineEndCharIndex doc l)) ∧
    (ch ≤ unitLen utf16Size (lineContent doc l) →
      lsp_pos_to_pos doc l ch .utf16 =
        some (lineToChar doc l + unitToChar utf16Size (lineContent doc l) ch)) := by
  have hnum := numLines_pos doc
  have hcond : ¬(l > numLines doc - 1) := by omega
  have hLEI := lineEndCharIndex_eq doc l hl
  have hdoclen := lineEnd_le_length doc l hl
  constructor
  · intro enc hch
    rw [lsp_pos_to_pos.eq_def, if_neg hcond]
    cases enc with
    | utf32 =>
      dsimp only
      rw [encSize] at hch
      rw [unitLen_utf32] at hch
      rw [hLEI]
      have hmin : min (lineToChar doc l + ch)
          (lineToChar doc l + (lineContent doc l).length) =
          lineToChar doc l + (lineContent doc l).length := by omega
      rw [hmin, ← hLEI]
    | utf16 =>
      dsimp only
      rw [encSize] at hch
      have hB : charToUtf16 doc (lineToChar doc l) =
          unitLen utf16Size (linesBefore doc l) := by
        rw [charToUtf16, charToUtf16_lineStart doc l hl]
      have hE : charToUtf16 doc (lineEndCharIndex doc l) =
          unitLen utf16Size (linesBefore doc l) +
            unitLen utf16Size (lineContent doc l) :=
        unitLen_take_lineEnd utf16Size doc l hl
      have hmin : min (unitLen utf16Size (linesBefore doc l) + ch)
          (unitLen utf16Size (linesBefore doc l) +
            unitLen utf16Size (lineContent doc l)) =
          unitLen utf16Size (linesBefore doc l) +
            unitLen utf16Size (lineContent doc l) := by omega
      have hpos : unitLen utf16Size (linesBefore doc l) +
          unitLen utf16Size (lineContent doc l) =
          unitLen utf16Size (doc.take (lineToChar doc l +
            (lineContent doc l).length)) := by
        rw [take_lineContent doc l hl _ le_rfl, List.take_length, unitLen_append]
      rw [hB, hE, hmin, hpos, tryUtf16ToChar,
        if_pos (unitLen_take_le utf16Size doc _),
        unitToChar_unitLen_take utf16Size one_le_utf16Size doc _ hdoclen, hLEI]
    | utf8 =>
      dsimp only
      rw [encSize] at hch
      have hE := lineEndByteIndex_eq doc l hl
      have hmin : min (unitLen utf8Size (linesBefore doc l) + ch)
          (unitLen utf8Size (linesBefore doc l) +
            unitLen utf8Size (lineContent doc l)) =
          unitLen utf8Size (linesBefore doc l) +
            unitLen utf8Size (lineContent doc l) := by omega
      have hpos : unitLen utf8Size (linesBefore doc l) +
          unitLen utf8Size (lineContent doc l) =
          unitLen utf8Size (doc.take (lineToChar doc l +
            (lineContent doc l).length)) := by
        rw [take_lineContent doc l hl _ le_rfl, List.take_length, unitLen_append]
      rw [show lineToByte doc l = unitLen utf8Size (linesBefore doc l) from rfl,
        hE, hmin, hpos, tryByteToChar,
        if_pos (unitLen_take_le utf8Size doc _),
        unitToChar_unitLen_take utf8Size one_le_utf8Size doc _ hdoclen, hLEI]
  · intro hch
    rw [lsp_pos_to_pos.eq_def, if_neg hcond]
    dsimp only
    have hB : charToUtf16 doc (lineToChar doc l) =
        unitLen utf16Size (linesBefore doc l) := by
      rw [charToUtf16, charToUtf16_lineStart doc l hl]
    have hE : charToUtf16 doc (lineEndCharIndex doc l) =
        unitLen utf16Size (linesBefore doc l) +
          unitLen utf16Size (lineContent doc l) :=
      unitLen_take_lineEnd utf16Size doc l hl
    have hmin : min (unitLen utf16Size (linesBefore doc l) + ch)
        (unitLen utf16Size (linesBefore doc l) +
          unitLen utf16Size (lineContent doc l)) =
        unitLen utf16Size (linesBefore doc l) + ch := by omega
    have hd2 := doc_decomp_content doc l hl
    have key := unitToChar_middle utf16Size one_le_utf16Size
      (linesBefore doc l) (lineContent doc l)
      (lineEnding (lineAt doc l) ++ ((splitLines doc).drop (l + 1)).flatten)
      ch hch
    rw [← hd2] at key
    have hbound : unitLen utf16Size (linesBefore doc l) + ch ≤
        unitLen utf16Size doc := by
      conv_rhs => rw [hd2]
      rw [unitLen_append, unitLen_append]
      omega
    rw [hB, hE, hmin, tryUtf16ToChar, if_pos hbound, key]
    rfl

/-- Counterexample to C2 as stated: on `"hello\nworld"`, the UTF-16 offset 10
on line 0 lies beyond the line's content (5 code units), yet `lsp_pos_to_pos`
returns the valid clamped offset 5 (the content end) for every encoding — no
`UnitOffsetOutOfBounds` error exists on this path (the reference model
assigns no offset here).  Likewise a UTF-16 offset inside the surrogate pair
of `'𐍈'` resolves to scalar 0 instead of erroring. -/
theorem lsp_pos_to_pos_clamps_counterexample :
    lsp_pos_to_pos ("hello\nworld".toList) 0 10 .utf16 = some 5 ∧
      lsp_pos_to_pos ("hello\nworld".toList) 0 10 .utf8 = some 5 ∧
      lsp_pos_to_pos ("hello\nworld".toList) 0 10 .utf32 = some 5 ∧
      specDecode ("hello\nworld".toList) 0 10 .utf16 = none ∧
      lsp_pos_to_pos ("𐍈x".toList) 0 1 .utf16 = some 0 := by
  refine ⟨by decide, by decide, by decide, by decide, by decide⟩

/-- Witness for the amended C2 at concrete inputs: the beyond-content offset
10 clamps to the end of line 0's content of `"hello\nworld"`, and the
mid-surrogate UTF-16 offset 1 in `"𐍈x"` resolves to the containing scalar. -/
theorem lsp_pos_to_pos_clamps_witness :
    lsp_pos_to_pos ("hello\nworld".toList) 0 10 .utf16 =
        some (lineEndCharIndex ("hello\nworld".toList) 0) ∧
      lsp_pos_to_pos ("𐍈x".toList) 0 1 .utf16 =
        some (lineToChar ("𐍈x".toList) 0 +
          unitToChar utf16Size (lineContent ("𐍈x".toList) 0) 1) :=
  ⟨(lsp_pos_to_pos_clamps ("hello\nworld".toList) 0 10 (by decide)).1
      .utf16 (by decide),
    (lsp_pos_to_pos_clamps ("𐍈x".toList) 0 1 (by decide)).2 (by decide)⟩

/-! ## Content hashing (`State::calculate_hash`, `src/state.rs`)

The Rust code feeds every rope chunk through `str::hash` into a
`DefaultHasher` (SipHash-1-3 with zero keys) and calls `finish`.
`str::hash` writes the chunk's UTF-8 bytes followed by a `0xFF` marker
byte, so the hasher input stream is chunking-dependent. -/

/-- `2^64`, the word size of the hasher state. -/
def w64 : Nat := 18446744073709551616

/-- 64-bit left rotation on `Nat` values below `2^64`. -/
def rotl64 (x r : Nat) : Nat := (x * 2 ^ r + x / 2 ^ (64 - r)) % w64

/-- One SipHash round on the four state words. -/
def sipRound (v0 v1 v2 v3 : Nat) : Nat × Nat × Nat × Nat :=
  let a0 := (v0 + v1) % w64
  let b1 := rotl64 v1 13 ^^^ a0
  let a1 := rotl64 a0 32
  let c2 := (v2 + v3) % w64
  let d3 := rotl64 v3 16 ^^^ c2
  let e0 := (a1 + d3) % w64
  let f3 := rotl64 d3 21 ^^^ e0
  let g2 := (c2 + b1) % w64
  let h1 := rotl64 b1 17 ^^^ g2
  let i2 := rotl64 g2 32
  (e0, h1, i2, f3)

/-- Absorb one 64-bit message word (one compression round for SipHash-1-3). -/
def sipCompress (v0 v1 v2 v3 m : Nat) : Nat × Nat × Nat × Nat :=
  match sipRound v0 v1 v2 (v3 ^^^ m) with
  | (w0, w1, w2, w3) => (w0 ^^^ m, w1, w2, w3)

/-- Little-endian word value of a byte list (first byte least significant). -/
def leWord (bs : List Nat) : Nat := bs.foldr (fun b acc => b + 256 * acc) 0

/-- Main SipHash-1-3 loop: absorb full 8-byte blocks, then finalize with the
tail block carrying the total length in the top byte, `v2 ^= 0xff`, and
three finalization rounds. -/
def sipLoop : Nat → Nat → Nat → Nat → List Nat → Nat → Nat
  | v0, v1, v2, v3, b0 :: b1 :: b2 :: b3 :: b4 :: b5 :: b6 :: b7 :: rest, len =>
    match sipCompress v0 v1 v2 v3 (leWord [b0, b1, b2, b3, b4, b5, b6, b7]) with
    | (w0, w1, w2, w3) => sipLoop w0 w1 w2 w3 rest len
  | v0, v1, v2, v3, tail, len =>
    let b := (len % 256) * 2 ^ 56 + leWord tail
    match sipCompress v0 v1 v2 v3 b with
    | (w0, w1, w2, w3) =>
      match sipRound w0 w1 (w2 ^^^ 0xff) w3 with
      | (x0, x1, x2, x3) =>
        match sipRound x0 x1 x2 x3 with
        | (y0, y1, y2, y3) =>
          match sipRound y0 y1 y2 y3 with
          | (z0, z1, z2, z3) => z0 ^^^ z1 ^^^ z2 ^^^ z3

/-- SipHash-1-3 with both keys zero (`DefaultHasher::new()`) of a byte
stream. -/
def sipHash13 (msg : List Nat) : Nat :=
  sipLoop 0x736f6d6570736575 0x646f72616e646f6d
    0x6c7967656e657261 0x7465646279746573 msg msg.length

/-- UTF-8 encoding of one scalar value (`char::encode_utf8`). -/
def utf8Bytes (c : Char) : List Nat :=
  let n := c.toNat
  if n < 0x80 then [n]
  else if n < 0x800 then [0xC0 + n / 64, 0x80 + n % 64]
  else if n < 0x10000 then
    [0xE0 + n / 4096, 0x80 + n / 64 % 64, 0x80 + n % 64]
  else
    [0xF0 + n / 262144, 0x80 + n / 4096 % 64, 0x80 + n / 64 % 64, 0x80 + n % 64]

/-- The UTF-8 bytes of a chunk (`str::as_bytes`). -/
def strBytes (s : List Char) : List Nat := (s.map utf8Bytes).flatten

/-- The byte stream `State::calculate_hash` feeds into the hasher: for each
chunk, its UTF-8 bytes followed by the `0xFF` marker `str::hash` appends. -/
def hashStream (chunks : List (List Char)) : List Nat :=
  (chunks.map (fun c => strBytes c ++ [0xff])).flatten

/-- `State::calculate_hash` on a rope presented as its chunk sequence. -/
def calculate_hash (chunks : List (List Char)) : Nat := sipHash13 (hashStream chunks)

/-- The content hash of a document held in one contiguous chunk (ropes built
from short texts, as in every scenario here, are single-leaf). -/
def contentHash (t : Doc) : Nat := calculate_hash [t]

/-! ### The hasher input stream determines the chunk sequence -/

/-- Decoder used to invert `utf8Bytes`: reads one scalar value off the front
of a byte stream; rejects lead bytes that `utf8Bytes` never produces
(in particular `0xFF`). -/
def utf8DecodeChar : List Nat → Option (Nat × List Nat)
  | [] => none
  | b0 :: rest =>
    if b0 < 0x80 then some (b0, rest)
    else if b0 < 0xC0 then none
    else if b0 < 0xE0 then
      match rest with
      | b1 :: rest' => some ((b0 - 0xC0) * 64 + (b1 - 0x80), rest')
      | [] => none
    else if b0 < 0xF0 then
      match rest with
      | b1 :: b2 :: rest' =>
        some (((b0 - 0xE0) * 64 + (b1 - 0x80)) * 64 + (b2 - 0x80), rest')
      | _ => none
    else if b0 < 0xF5 then
      match rest with
      | b1 :: b2 :: b3 :: rest' =>
        some ((((b0 - 0xF0) * 64 + (b1 - 0x80)) * 64 + (b2 - 0x80)) * 64 +
          (b3 - 0x80), rest')
      | _ => none
    else none

theorem char_toNat_lt (c : Char) : c.toNat < 0x110000 := by
  have h := c.valid
  rcases h with h | ⟨h1, h2⟩
  · simp only [Char.toNat]
    omega
  · simp only [Char.toNat]
    omega

theorem utf8DecodeChar_round (c : Char) (rest : List Nat) :
    utf8DecodeChar (utf8Bytes c ++ rest) = some (c.toNat, rest) := by
  have hv := char_toNat_lt c
  by_cases h1 : c.toNat < 0x80
  · simp only [utf8Bytes, if_pos h1, List.cons_append, List.nil_append,
      utf8DecodeChar, if_pos h1]
  · by_cases h2 : c.toNat < 0x800
    · simp only [utf8Bytes, if_neg h1, if_pos h2, List.cons_append,
        List.nil_append, utf8DecodeChar]
      rw [if_neg (by omega), if_neg (by omega), if_pos (by omega)]
      simp only [Option.some.injEq, Prod.mk.injEq]
      exact ⟨by omega, trivial⟩
    · by_cases h3 : c.toNat < 0x10000
      · simp only [utf8Bytes, if_neg h1, if_neg h2, if_pos h3,
          List.cons_append, List.nil_append, utf8DecodeChar]
        rw [if_neg (by omega), if_neg (by omega), if_neg (by omega),
          if_pos (by omega)]
        simp only [Option.some.injEq, Prod.mk.injEq]
        exact ⟨by omega, trivial⟩
      · simp only [utf8Bytes, if_neg h1, if_neg h2, if_neg h3,
          List.cons_append, List.nil_append, utf8DecodeChar]
        rw [if_neg (by omega), if_neg (by omega), if_neg (by omega),
          if_neg (by omega), if_pos (by omega)]
        simp only [Option.some.injEq, Prod.mk.injEq]
        exact ⟨by omega, trivial⟩

theorem utf8DecodeChar_ff (rest : List Nat) :
    utf8DecodeChar (0xff :: rest) = none := by
  simp only [utf8DecodeChar]
  rw [if_neg (by omega), if_neg (by omega), if_neg (by omega),
    if_neg (by omega), if_neg (by omega)]

theorem strBytes_cons (c : Char) (s : List Char) :
    strBytes (c :: s) = utf8Bytes c ++ strBytes s := by
  simp [strBytes]

theorem strBytes_sep_inj (a : List Char) : ∀ (b : List Char) (X Y : List Nat),
    strBytes a ++ 0xff :: X = strBytes b ++ 0xff :: Y → a = b ∧ X = Y := by
  induction a with
  | nil =>
    intro b X Y h
    cases b with
    | nil =>
      simp only [strBytes, List.map_nil, List.flatten_nil, List.nil_append,
        List.cons.injEq] at h
      exact ⟨rfl, h.2⟩
    | cons d b' =>
      exfalso
      rw [strBytes_cons, List.append_assoc] at h
      simp only [strBytes, List.map_nil, List.flatten_nil, List.nil_append] at h
      have := congrArg utf8DecodeChar h
      rw [utf8DecodeChar_ff, utf8DecodeChar_round] at this
      exact Option.noConfusion this
  | cons c a' ih =>
    intro b X Y h
    cases b with
    | nil =>
      exfalso
      rw [strBytes_cons, List.append_assoc] at h
      simp only [strBytes, List.map_nil, List.flatten_nil, List.nil_append] at h
      have := congrArg utf8DecodeChar h
      rw [utf8DecodeChar_ff, utf8DecodeChar_round] at this
      exact Option.noConfusion this
    | cons d b' =>
      rw [strBytes_cons, strBytes_cons, List.append_assoc, List.append_assoc] at h
      have hdec := congrArg utf8DecodeChar h
      rw [utf8DecodeChar_round, utf8DecodeChar_round] at hdec
      simp only [Option.some.injEq, Prod.mk.injEq] at hdec
      obtain ⟨hn, htl⟩ := hdec
      have hc : c = d := by
        apply Char.ext
        apply UInt32.ext
        exact hn
      obtain ⟨hab, hXY⟩ := ih b' X Y htl
      exact ⟨by rw [hc, hab], hXY⟩

theorem hashStream_cons (c : List Char) (t : List (List Char)) :
    hashStream (c :: t) = strBytes c ++ 0xff :: hashStream t := by
  simp only [hashStream, List.map_cons, List.flatten_cons, List.append_assoc,
    List.singleton_append]

theorem hashStream_inj (c1 : List (List Char)) : ∀ c2 : List (List Char),
    hashStream c1 = hashStream c2 → c1 = c2 := by
  induction c1 with
  | nil =>
    intro c2 h
    cases c2 with
    | nil => rfl
    | cons b t2 =>
      exfalso
      rw [hashStream_cons] at h
      have hlen := congrArg List.length h
      simp only [hashStream, List.map_nil, List.flatten_nil, List.length_nil,
        List.length_append, List.length_cons] at hlen
      omega
  | cons a t1 ih =>
    intro c2 h
    cases c2 with
    | nil =>
      exfalso
      rw [hashStream_cons] at h
      have hlen := congrArg List.length h
      simp only [hashStream, List.map_nil, List.flatten_nil, List.length_nil,
        List.length_append, List.length_cons] at hlen
      omega
    | cons b t2 =>
      rw [hashStream_cons, hashStream_cons] at h
      obtain ⟨hab, ht⟩ := strBytes_sep_inj a b _ _ h
      rw [hab, ih t2 ht]

/-- C4 (amended): `calculate_hash` is a pure, deterministic function of the
rope's chunk sequence, and the hasher input stream determines that chunk
sequence exactly (a `0xFF` marker byte can never occur inside UTF-8 chunk
data, so streams of different texts never coincide); but equal text split at
different chunk boundaries feeds different streams and can hash
differently. -/
theorem calculate_hash_of_chunks (c1 c2 : List (List Char)) :
    (c1 = c2 → calculate_hash c1 = calculate_hash c2) ∧
      (hashStream c1 = hashStream c2 ↔ c1 = c2) := by
  refine ⟨fun h => by rw [h], ⟨hashStream_inj c1 c2, fun h => by rw [h]⟩⟩

/-- Counterexample to C4 as stated: the two-chunk rope `["a", "b"]` and the
single-chunk rope `["ab"]` hold the same scalar sequence `"ab"`, yet
`calculate_hash` differs (the `0xFF` per-chunk marker makes the hasher
input stream chunking-dependent). -/
theorem calculate_hash_chunking_counterexample :
    ([['a', 'b']] : List (List Char)).flatten = ([['a'], ['b']] : List (List Char)).flatten ∧
      calculate_hash [['a', 'b']] ≠ calculate_hash [['a'], ['b']] := by
  constructor
  · rfl
  · decide

/-- Witness for the amended C4: both directions applied at concrete chunk
sequences. -/
theorem calculate_hash_of_chunks_witness :
    calculate_hash [['a', 'b']] = calculate_hash [['a', 'b']] ∧
      ([['a'], ['b']] : List (List Char)) = [['a'], ['b']] :=
  ⟨(calculate_hash_of_chunks [['a', 'b']] [['a', 'b']]).1 rfl,
    (calculate_hash_of_chunks [['a'], ['b']] [['a'], ['b']]).2.mp rfl⟩

/-! ## The document store (`State`, `src/state.rs`)

The `RwLock`-guarded hash maps become function-valued fields; each `&mut
self` method becomes a function from `State` to `State` (wrapped in
`Option`/`Except` where the Rust can panic).  Documents held by the store
are contiguous (`Rope::from_str` of short texts and in-place edits keep a
single leaf), so the store-level content hash is `contentHash`, the
single-chunk case of `calculate_hash`. -/

/-- Document identity (`Url`). -/
abbrev Url := String

/-- Opaque payload of one cached color value (`ColorInformation`); the store
logic never inspects it. -/
abbrev ColorInformation := Nat

/-- `CachedColors` from `src/state.rs`. -/
structure CachedColors where
  content_hash : Nat
  colors : List ColorInformation
deriving DecidableEq, Repr

/-- `ActionData`: the per-title payload cached by a code-action listing
(document identity and source range of the request). -/
structure ActionData where
  uri : Url
  range : (Nat × Nat) × (Nat × Nat)
deriving DecidableEq, Repr

/-- `ClientInfo` from `src/state.rs`. -/
structure ClientInfo where
  name : String
  version : String
deriving DecidableEq, Repr

/-- The `State` struct from `src/state.rs`. -/
structure State where
  root : String
  client_info : ClientInfo
  documents : Url → Option Doc
  hash : Url → Option Nat
  language_ids : Url → Option String
  color_cache : Url → Option CachedColors
  action_cache : String → Option ActionData

/-- Marker for a Rust panic (`unwrap`/`expect` on `None`). -/
inductive Panic where
  | panic
deriving DecidableEq, Repr

/-- Pointwise map update (`HashMap::insert` / `remove`). -/
def mapUpdate {β : Type} (m : Url → Option β) (k : Url) (v : Option β) :
    Url → Option β :=
  fun k' => if k' = k then v else m k'

/-- `State::default()`. -/
def State.init : State :=
  ⟨"", ⟨"", ""⟩, fun _ => none, fun _ => none, fun _ => none,
    fun _ => none, fun _ => none⟩

/-- `State::calculate_hash`: hash of the named document's current text,
`None` when the identity is unknown. -/
def State.calculate_hash (st : State) (uri : Url) : Option Nat :=
  (st.documents uri).map contentHash

/-- `State::set_hash`: recompute and store the hash — but only for a key
already present in the hash map (`get_mut` on a missing key is a no-op). -/
def State.set_hash (st : State) (uri : Url) : State :=
  let h := (st.calculate_hash uri).getD 0
  match st.hash uri with
  | some _ => { st with hash := mapUpdate st.hash uri (some h) }
  | none => st

/-- `State::get_hash`.  `unwrap_or` evaluates its argument eagerly, so
`self.calculate_hash(uri).unwrap()` runs — and panics on an unknown
identity — before the hash-map entry is consulted. -/
def State.get_hash (st : State) (uri : Url) : Except Panic Nat :=
  match st.calculate_hash uri with
  | none => .error .panic
  | some h => .ok ((st.hash uri).getD h)

/-- `State::get_document`: unknown identities yield the empty rope. -/
def State.get_document (st : State) (uri : Url) : Doc :=
  (st.documents uri).getD []

/-- `State::get_language_id`: unknown identities yield the empty string. -/
def State.get_language_id (st : State) (uri : Url) : String :=
  (st.language_ids uri).getD ""

/-- `State::clear_color`: remove the color-cache entry. -/
def State.clear_color (st : State) (uri : Url) : State :=
  { st with color_cache := mapUpdate st.color_cache uri none }

/-- `State::on_document_open`: upsert language id (when given) and document
text, then `set_hash` and `clear_color`. -/
def State.on_document_open (st : State) (uri : Url) (content : Doc)
    (language_id : Option String) : State :=
  let st1 :=
    match language_id with
    | some lid => { st with language_ids := mapUpdate st.language_ids uri (some lid) }
    | none => st
  let st2 := { st1 with documents := mapUpdate st1.documents uri (some content) }
  (st2.set_hash uri).clear_color uri

/-- `State::on_document_save`: replace the text wholesale when the identity
is known, else do nothing at all. -/
def State.on_document_save (st : State) (uri : Url) (content : Doc) : State :=
  match st.documents uri with
  | some _ =>
    ((({ st with documents := mapUpdate st.documents uri (some content) }).set_hash
      uri).clear_color uri)
  | none => st

/-- An LSP `Position` as delivered in change events. -/
structure Position where
  line : Nat
  character : Nat
deriving DecidableEq, Repr

/-- `TextDocumentContentChangeEvent`: an optional range and replacement
text; an absent range means "replace the whole document". -/
structure TextDocumentContentChangeEvent where
  range : Option (Position × Position)
  text : Doc
deriving DecidableEq, Repr

/-- `position_to_char_index` from `src/state.rs`: decode with the hardwired
UTF-16 encoding and `unwrap`.  The decode is total for UTF-16
(`lsp_pos_to_pos_utf16_isSome` below), so modelling `unwrap` by `getD 0`
is exact. -/
def position_to_char_index (doc : Doc) (pos : Position) : Nat :=
  (lsp_pos_to_pos doc pos.line pos.character .utf16).getD 0

theorem lsp_pos_to_pos_utf16_isSome (doc : Doc) (l ch : Nat) :
    (lsp_pos_to_pos doc l ch .utf16).isSome := by
  rw [lsp_pos_to_pos.eq_def]
  split
  · rfl
  · dsimp only
    rename_i hcond
    rw [tryUtf16ToChar]
    rw [if_pos]
    · rfl
    · have h1 : charToUtf16 doc (lineEndCharIndex doc l) ≤
          unitLen utf16Size doc := unitLen_take_le utf16Size doc _
      omega

/-- `Rope::remove(s..e)` on char indices (defined for `s ≤ e ≤ len`). -/
def ropeRemove (doc : Doc) (s e : Nat) : Doc := doc.take s ++ doc.drop e

/-- `Rope::insert(i, t)` on char indices (defined for `i ≤ len`). -/
def ropeInsert (doc : Doc) (i : Nat) (t : Doc) : Doc :=
  doc.take i ++ t ++ doc.drop i

/-- One iteration of the `for content in contents` loop of
`State::on_document_change`: decode both endpoints against the current
text, then `Rope::remove(start..end)` (which panics when `start > end`,
modelled as `none`) followed by `Rope::insert(start, text)`; a range-less
event replaces the whole text. -/
def applyEvent (doc : Doc) (ev : TextDocumentContentChangeEvent) : Option Doc :=
  match ev.range with
  | some (s, e) =>
    let start := position_to_char_index doc s
    let stop := position_to_char_index doc e
    if start ≤ stop then some (ropeInsert (ropeRemove doc start stop) start ev.text)
    else none
  | none => some ev.text

/-- The whole event loop of `State::on_document_change`, in delivery
order. -/
def applyBatch : Doc → List TextDocumentContentChangeEvent → Option Doc
  | doc, [] => some doc
  | doc, ev :: rest =>
    match applyEvent doc ev with
    | some d => applyBatch d rest
    | none => none

/-- `State::on_document_change`: run the event loop when the identity is
known (skip it otherwise), then `set_hash` and `clear_color`
unconditionally.  `none` models a panic inside the loop. -/
def State.on_document_change (st : State) (uri : Url)
    (contents : List TextDocumentContentChangeEvent) : Option State :=
  match st.documents uri with
  | none => some ((st.set_hash uri).clear_color uri)
  | some doc =>
    (applyBatch doc contents).map fun doc' =>
      ((({ st with documents := mapUpdate st.documents uri (some doc') }).set_hash
        uri).clear_color uri)

/-- `State::clean`: remove the document, its language id and its color-cache
entry, and clear the whole action cache. -/
def State.clean (st : State) (uri : Url) : State :=
  { st with
    documents := mapUpdate st.documents uri none
    language_ids := mapUpdate st.language_ids uri none
    color_cache := mapUpdate st.color_cache uri none
    action_cache := fun _ => none }

/-- `State::set_client_info`. -/
def State.set_client_info (st : State) (name version : String) : State :=
  { st with client_info := ⟨name, version⟩ }

/-- `State::get_action`. -/
def State.get_action (st : State) (name : String) : Option ActionData :=
  st.action_cache name

/-- `State::set_action`. -/
def State.set_action (st : State) (name : String) (data : ActionData) : State :=
  { st with action_cache := fun k => if k = name then some data else st.action_cache k }

/-- `State::clear_action`. -/
def State.clear_action (st : State) : State :=
  { st with action_cache := fun _ => none }

/-- `State::get_color`: recompute the current hash (panicking on an unknown
identity, see `get_hash`) and return the cached colors only when the stored
hash matches. -/
def State.get_color (st : State) (uri : Url) :
    Except Panic (Option (List ColorInformation)) :=
  match st.get_hash uri with
  | .error e => .error e
  | .ok h =>
    .ok ((st.color_cache uri).bind fun cached =>
      if cached.content_hash = h then some cached.colors else none)

/-- `State::set_color`: record the colors under the current content hash;
`none` models the panic `get_hash` raises for an unknown identity. -/
def State.set_color (st : State) (uri : Url) (colors : List ColorInformation) :
    Option State :=
  match st.get_hash uri with
  | .error _ => none
  | .ok h =>
    some { st with color_cache := mapUpdate st.color_cache uri (some ⟨h, colors⟩) }

/-- States reachable from `State::default()` by the store's public
operations (the fallible ones contribute only their successful runs). -/
inductive Reachable : State → Prop where
  | init : Reachable State.init
  | doc_open (st : State) (uri : Url) (content : Doc) (lid : Option String) :
      Reachable st → Reachable (st.on_document_open uri content lid)
  | doc_save (st : State) (uri : Url) (content : Doc) :
      Reachable st → Reachable (st.on_document_save uri content)
  | doc_change (st : State) (uri : Url)
      (evs : List TextDocumentContentChangeEvent) (st' : State) :
      Reachable st → st.on_document_change uri evs = some st' → Reachable st'
  | doc_clean (st : State) (uri : Url) :
      Reachable st → Reachable (st.clean uri)
  | color_set (st : State) (uri : Url) (colors : List ColorInformation)
      (st' : State) :
      Reachable st → st.set_color uri colors = some st' → Reachable st'
  | color_clear (st : State) (uri : Url) :
      Reachable st → Reachable (st.clear_color uri)
  | action_set (st : State) (name : String) (data : ActionData) :
      Reachable st → Reachable (st.set_action name data)
  | action_clear (st : State) :
      Reachable st → Reachable st.clear_action
  | client_info (st : State) (n v : String) :
      Reachable st → Reachable (st.set_client_info n v)

/-! ## Store invariants -/

theorem set_hash_hash_none (st : State) (uri : Url) (h : st.hash uri = none) :
    st.set_hash uri = st := by
  simp only [State.set_hash, h]

/-- Invariant of every reachable state: nothing ever inserts into the hash
map (`set_hash` only overwrites existing entries), so it stays empty; and
the color cache and language-id map never hold entries for identities
absent from the document map. -/
theorem reachable_inv (st : State) (h : Reachable st) :
    (∀ u, st.hash u = none) ∧
    (∀ u, st.documents u = none → st.color_cache u = none) ∧
    (∀ u, st.documents u = none → st.language_ids u = none) := by
  induction h with
  | init =>
    refine ⟨fun u => rfl, fun u _ => rfl, fun u _ => rfl⟩
  | doc_open st uri content lid _ ih =>
    obtain ⟨ih1, ih2, ih3⟩ := ih
    cases lid with
    | some l =>
      refine ⟨fun u => ?_, fun u hu => ?_, fun u hu => ?_⟩
      · simp only [State.on_document_open, State.set_hash, State.clear_color, ih1 uri, mapUpdate]
        exact ih1 u
      · simp only [State.on_document_open, State.set_hash, State.clear_color, ih1 uri, mapUpdate] at hu ⊢
        by_cases huu : u = uri
        · simp [huu]
        · simp only [if_neg huu] at hu ⊢
          exact ih2 u hu
      · simp only [State.on_document_open, State.set_hash, State.clear_color, ih1 uri, mapUpdate] at hu ⊢
        by_cases huu : u = uri
        · simp [huu] at hu
        · simp only [if_neg huu] at hu ⊢
          exact ih3 u hu
    | none =>
      refine ⟨fun u => ?_, fun u hu => ?_, fun u hu => ?_⟩
      · simp only [State.on_document_open, State.set_hash, State.clear_color, ih1 uri, mapUpdate]
        exact ih1 u
      · simp only [State.on_document_open, State.set_hash, State.clear_color, ih1 uri, mapUpdate] at hu ⊢
        by_cases huu : u = uri
        · simp [huu]
        · simp only [if_neg huu] at hu ⊢
          exact ih2 u hu
      · simp only [State.on_document_open, State.set_hash, State.clear_color, ih1 uri, mapUpdate] at hu ⊢
        by_cases huu : u = uri
        · simp [huu] at hu
        · simp only [if_neg huu] at hu ⊢
          exact ih3 u hu
  | doc_save st uri content _ ih =>
    obtain ⟨ih1, ih2, ih3⟩ := ih
    cases hd : st.documents uri with
    | none =>
      simp only [State.on_document_save, hd]
      exact ⟨ih1, ih2, ih3⟩
    | some d =>
      refine ⟨fun u => ?_, fun u hu => ?_, fun u hu => ?_⟩
      · simp only [State.on_document_save, hd, State.set_hash, State.clear_color, ih1 uri, mapUpdate]
        exact ih1 u
      · simp only [State.on_document_save, hd, State.set_hash, State.clear_color, ih1 uri, mapUpdate] at hu ⊢
        by_cases huu : u = uri
        · simp [huu]
        · simp only [if_neg huu] at hu ⊢
          exact ih2 u hu
      · simp only [State.on_document_save, hd, State.set_hash, State.clear_color, ih1 uri, mapUpdate] at hu ⊢
        by_cases huu : u = uri
        · simp [huu] at hu
        · simp only [if_neg huu] at hu ⊢
          exact ih3 u hu
  | doc_change st uri evs st' _ heq ih =>
    obtain ⟨ih1, ih2, ih3⟩ := ih
    cases hd : st.documents uri with
    | none =>
      simp only [State.on_document_change, hd, Option.some.injEq] at heq
      subst heq
      refine ⟨fun u => ?_, fun u hu => ?_, fun u hu => ?_⟩
      · simp only [State.set_hash, State.clear_color, ih1 uri, mapUpdate]
        exact ih1 u
      · simp only [State.set_hash, State.clear_color, ih1 uri, mapUpdate] at hu ⊢
        by_cases huu : u = uri
        · simp [huu]
        · simp only [if_neg huu] at hu ⊢
          exact ih2 u hu
      · simp only [State.set_hash, State.clear_color, ih1 uri, mapUpdate] at hu ⊢
        exact ih3 u hu
    | some d =>
      simp only [State.on_document_change, hd] at heq
      rcases Option.map_eq_some'.mp heq with ⟨d', _, hst'⟩
      subst hst'
      refine ⟨fun u => ?_, fun u hu => ?_, fun u hu => ?_⟩
      · simp only [State.set_hash, State.clear_color, ih1 uri, mapUpdate]
        exact ih1 u
      · simp only [State.set_hash, State.clear_color, ih1 uri, mapUpdate] at hu ⊢
        by_cases huu : u = uri
        · simp [huu]
        · simp only [if_neg huu] at hu ⊢
          exact ih2 u hu
      · simp only [State.set_hash, State.clear_color, ih1 uri, mapUpdate] at hu ⊢
        by_cases huu : u = uri
        · simp [huu] at hu
        · simp only [if_neg huu] at hu ⊢
          exact ih3 u hu
  | doc_clean st uri _ ih =>
    obtain ⟨ih1, ih2, ih3⟩ := ih
    refine ⟨fun u => ?_, fun u hu => ?_, fun u hu => ?_⟩
    · simp only [State.clean, mapUpdate]
      exact ih1 u
    · simp only [State.clean, mapUpdate] at hu ⊢
      by_cases huu : u = uri
      · simp [huu]
      · simp only [if_neg huu] at hu ⊢
        exact ih2 u hu
    · simp only [State.clean, mapUpdate] at hu ⊢
      by_cases huu : u = uri
      · simp [huu]
      · simp only [if_neg huu] at hu ⊢
        exact ih3 u hu
  | color_set st uri colors st' _ heq ih =>
    obtain ⟨ih1, ih2, ih3⟩ := ih
    simp only [State.set_color] at heq
    cases hh : st.get_hash uri with
    | error e => rw [hh] at heq; exact absurd heq (by simp)
    | ok hv =>
      rw [hh] at heq
      simp only [Option.some.injEq] at heq
      subst heq
      have hdoc : ∃ d, st.documents uri = some d := by
        simp only [State.get_hash, State.calculate_hash] at hh
        cases hd : st.documents uri with
        | none => rw [hd] at hh; simp at hh
        | some d => exact ⟨d, rfl⟩
      refine ⟨fun u => ih1 u, fun u hu => ?_, fun u hu => ih3 u hu⟩
      simp only [mapUpdate] at hu ⊢
      by_cases huu : u = uri
      · subst huu
        obtain ⟨d, hd⟩ := hdoc
        rw [hd] at hu
        exact absurd hu (by simp)
      · simp only [if_neg huu]
        exact ih2 u hu
  | color_clear st uri _ ih =>
    obtain ⟨ih1, ih2, ih3⟩ := ih
    refine ⟨fun u => ih1 u, fun u hu => ?_, fun u hu => ih3 u hu⟩
    simp only [State.clear_color, mapUpdate] at hu ⊢
    by_cases huu : u = uri
    · simp [huu]
    · simp only [if_neg huu] at hu ⊢
      exact ih2 u hu
  | action_set st name data _ ih => exact ih
  | action_clear st _ ih => exact ih
  | client_info st n v _ ih => exact ih

theorem clear_color_of_none (st : State) (uri : Url)
    (h : st.color_cache uri = none) : st.clear_color uri = st := by
  cases st with
  | mk r ci docs hs lang cc ac =>
    simp only [State.clear_color, State.mk.injEq, true_and, and_true]
    funext k
    simp only [mapUpdate]
    split
    · rename_i hk
      subst hk
      exact h.symm
    · rfl

/-- Concrete store used by witnesses: `"a"` opened with text `"x"`. -/
def exOpen : State := State.init.on_document_open "a" ['x'] (some "text")

/-- `exOpen` after closing `"a"` again. -/
def exClosed : State := exOpen.clean "a"

/-- `exOpen` after caching colors `[5]` for `"a"`. -/
def exColored : State := (exOpen.set_color "a" [5]).getD State.init

theorem reachable_exOpen : Reachable exOpen :=
  Reachable.doc_open _ _ _ _ Reachable.init

theorem reachable_exClosed : Reachable exClosed :=
  Reachable.doc_clean _ _ reachable_exOpen

theorem reachable_exColored : Reachable exColored :=
  Reachable.color_set exOpen "a" [5] exColored reachable_exOpen rfl

/-! ## C6: change and save on an unknown identity are no-ops -/

/-- C6: for every reachable store and every identity absent from the
document map, `on_document_change` (and likewise `on_document_save`)
neither panics nor changes any part of the store: the change returns the
state unchanged (events are skipped, `set_hash` finds no entry and the
color-cache removal hits an entry that cannot exist), and the save returns
the state unchanged. -/
theorem change_save_unknown_noop (st : State) (uri : Url)
    (evs : List TextDocumentContentChangeEvent) (content : Doc)
    (hr : Reachable st) (hu : st.documents uri = none) :
    st.on_document_change uri evs = some st ∧
      st.on_document_save uri content = st := by
  obtain ⟨ih1, ih2, _⟩ := reachable_inv st hr
  constructor
  · simp only [State.on_document_change, hu, Option.some.injEq]
    rw [set_hash_hash_none st uri (ih1 uri), clear_color_of_none st uri (ih2 uri hu)]
  · simp only [State.on_document_save, hu]

/-- Witness for C6 at the spec's scenario: `close("a")` then `change("a",…)`
(and `save("a",…)`) on the store that had `"a"` open is a tolerated no-op. -/
theorem change_save_unknown_noop_witness :
    exClosed.on_document_change "a"
        [⟨some (⟨0, 0⟩, ⟨0, 0⟩), ['y']⟩] = some exClosed ∧
      exClosed.on_document_save "a" ['y'] = exClosed :=
  change_save_unknown_noop exClosed "a" _ _ reachable_exClosed rfl

/-! ## C7: reads of an unknown identity -/

/-- C7 (amended): for an identity absent from the document store, reading
the text or the language id returns an empty default, but reading the
content hash panics (`unwrap_or` evaluates `calculate_hash(uri).unwrap()`
eagerly), and the color-cache read — which recomputes the hash first —
panics likewise. -/
theorem unknown_document_reads (st : State) (uri : Url)
    (hr : Reachable st) (hu : st.documents uri = none) :
    st.get_document uri = [] ∧ st.get_language_id uri = "" ∧
      st.get_hash uri = .error .panic ∧
      st.get_color uri = .error .panic := by
  obtain ⟨_, _, ih3⟩ := reachable_inv st hr
  have hch : st.calculate_hash uri = none := by
    simp [State.calculate_hash, hu]
  refine ⟨?_, ?_, ?_, ?_⟩
  · simp [State.get_document, hu]
  · simp [State.get_language_id, ih3 uri hu]
  · simp [State.get_hash, hch]
  · simp [State.get_color, State.get_hash, hch]

/-- Counterexample to C7 as stated: on the empty store, reading the content
hash of the unknown identity `"a"` panics (and so does the color read),
instead of producing an empty/absent result. -/
theorem unknown_document_reads_counterexample :
    State.init.get_hash "a" = .error .panic ∧
      State.init.get_color "a" = .error .panic :=
  ⟨rfl, rfl⟩

/-- Witness for the amended C7 on the empty store. -/
theorem unknown_document_reads_witness :
    State.init.get_document "a" = [] ∧
      State.init.get_language_id "a" = "" ∧
      State.init.get_hash "a" = .error .panic ∧
      State.init.get_color "a" = .error .panic :=
  unknown_document_reads State.init "a" Reachable.init rfl

/-! ## C5: color-cache validity -/

/-- C5 (amended): the color-cache lookup returns `Some` only when the hash
recorded by the most recent `set_color` (the cache holds exactly the last
record) equals the document's current content hash; it returns `None` after
open / change / save of a present identity without an intervening set (the
mutation removes the entry); but after `clean` of the identity the lookup
panics — it recomputes the content hash of the now-unknown document —
rather than returning `None`. -/
theorem get_color_cache_correct (st : State) (uri : Url) :
    (Reachable st → ∀ colors, st.get_color uri = .ok (some colors) →
      ∃ d, st.documents uri = some d ∧
        st.color_cache uri = some ⟨contentHash d, colors⟩) ∧
    (∀ content lid,
      (st.on_document_open uri content lid).get_color uri = .ok none) ∧
    (∀ evs st' d, st.documents uri = some d →
      st.on_document_change uri evs = some st' →
        st'.get_color uri = .ok none) ∧
    (∀ content d, st.documents uri = some d →
      (st.on_document_save uri content).get_color uri = .ok none) ∧
    (st.clean uri).get_color uri = .error .panic := by
  refine ⟨?_, ?_, ?_, ?_, ?_⟩
  · intro hr colors h
    obtain ⟨ih1, _, _⟩ := reachable_inv st hr
    simp only [State.get_color, State.get_hash] at h
    cases hch : st.calculate_hash uri with
    | none => rw [hch] at h; exact absurd h (by simp)
    | some hv =>
      rw [hch, ih1 uri] at h
      simp only [Option.getD_none, Except.ok.injEq] at h
      cases hc : st.color_cache uri with
      | none => rw [hc] at h; exact absurd h (by simp)
      | some cached =>
        rw [hc] at h
        simp only [Option.some_bind] at h
        split at h
        · rename_i hceq
          simp only [Option.some.injEq] at h
          simp only [State.calculate_hash] at hch
          cases hd : st.documents uri with
          | none => rw [hd] at hch; exact absurd hch (by simp)
          | some d =>
            rw [hd] at hch
            simp only [Option.map_some', Option.some.injEq] at hch
            refine ⟨d, rfl, ?_⟩
            cases cached with
            | mk ch cols =>
              simp only [Option.some.injEq, CachedColors.mk.injEq]
              simp only at hceq h
              exact ⟨by rw [hceq, hch], h⟩
        · exact absurd h (by simp)
  · intro content lid
    cases lid with
    | some l =>
      cases hsh : st.hash uri with
      | some hv =>
        simp [State.on_document_open, State.set_hash, State.clear_color,
          State.get_color, State.get_hash, State.calculate_hash, mapUpdate, hsh]
      | none =>
        simp [State.on_document_open, State.set_hash, State.clear_color,
          State.get_color, State.get_hash, State.calculate_hash, mapUpdate, hsh]
    | none =>
      cases hsh : st.hash uri with
      | some hv =>
        simp [State.on_document_open, State.set_hash, State.clear_color,
          State.get_color, State.get_hash, State.calculate_hash, mapUpdate, hsh]
      | none =>
        simp [State.on_document_open, State.set_hash, State.clear_color,
          State.get_color, State.get_hash, State.calculate_hash, mapUpdate, hsh]
  · intro evs st' d hd heq
    simp only [State.on_document_change, hd] at heq
    rcases Option.map_eq_some'.mp heq with ⟨d', _, hst'⟩
    subst hst'
    cases hsh : st.hash uri with
    | some hv =>
      simp [State.set_hash, State.clear_color, State.get_color,
        State.get_hash, State.calculate_hash, mapUpdate, hsh]
    | none =>
      simp [State.set_hash, State.clear_color, State.get_color,
        State.get_hash, State.calculate_hash, mapUpdate, hsh]
  · intro content d hd
    cases hsh : st.hash uri with
    | some hv =>
      simp [State.on_document_save, hd, State.set_hash, State.clear_color,
        State.get_color, State.get_hash, State.calculate_hash, mapUpdate, hsh]
    | none =>
      simp [State.on_document_save, hd, State.set_hash, State.clear_color,
        State.get_color, State.get_hash, State.calculate_hash, mapUpdate, hsh]
  · simp [State.clean, State.get_color, State.get_hash,
      State.calculate_hash, mapUpdate]

/-- Counterexample to C5 as stated: after caching colors for `"a"` and then
closing `"a"`, the lookup does not return `None` — it panics, because
`get_color` recomputes the content hash of the now-unknown document and
unwraps `None`. -/
theorem get_color_after_close_counterexample :
    (exColored.clean "a").get_color "a" = .error .panic ∧
      (exColored.clean "a").get_color "a" ≠ .ok none := by
  refine ⟨rfl, ?_⟩
  intro h
  rw [show (exColored.clean "a").get_color "a" = .error .panic from rfl] at h
  exact Except.noConfusion h

/-- Witness for the amended C5: all five clauses applied at the concrete
stores built from `"a"` ↦ `"x"`. -/
theorem get_color_cache_correct_witness :
    (∃ d, exColored.documents "a" = some d ∧
      exColored.color_cache "a" = some ⟨contentHash d, [5]⟩) ∧
    ((exOpen.on_document_open "a" ['y'] none).get_color "a" = .ok none) ∧
    (((exOpen.on_document_change "a" [⟨none, ['z']⟩]).getD
        State.init).get_color "a" = .ok none) ∧
    ((exOpen.on_document_save "a" ['w']).get_color "a" = .ok none) ∧
    ((exColored.clean "a").get_color "a" = .error .panic) :=
  ⟨(get_color_cache_correct exColored "a").1 reachable_exColored [5] rfl,
    (get_color_cache_correct exOpen "a").2.1 ['y'] none,
    (get_color_cache_correct exOpen "a").2.2.1 [⟨none, ['z']⟩]
      ((exOpen.on_document_change "a" [⟨none, ['z']⟩]).getD State.init)
      ['x'] rfl rfl,
    (get_color_cache_correct exOpen "a").2.2.2.1 ['w'] ['x'] rfl,
    (get_color_cache_correct exColored "a").2.2.2.2⟩

/-! ## C3: change events are applied in delivery order -/

/-- The store of the spec's scenario: `"a"` open with `"hello\nworld"`. -/
def exHello : State :=
  State.init.on_document_open "a" ("hello\nworld".toList) (some "text")

/-- The scenario's change event: replace range `(0,5)-(0,5)` with `"!!"`. -/
def exHelloEvent : TextDocumentContentChangeEvent :=
  ⟨some (⟨0, 5⟩, ⟨0, 5⟩), "!!".toList⟩

/-- `exHello` after delivering the scenario's change batch. -/
def exHello' : State :=
  (exHello.on_document_change "a" [exHelloEvent]).getD State.init

theorem unitToChar_le_length (sz : Char → Nat) (l : Doc) (u : Nat) :
    unitToChar sz l u ≤ l.length := by
  induction l generalizing u with
  | nil => exact le_rfl
  | cons c rest ih =>
    simp only [unitToChar, List.length_cons]
    split
    · omega
    · have := ih (u - sz c)
      omega

theorem position_to_char_index_le (doc : Doc) (p : Position) :
    position_to_char_index doc p ≤ doc.length := by
  simp only [position_to_char_index, lsp_pos_to_pos.eq_def]
  split
  · simp
  · simp only [tryUtf16ToChar]
    split
    · simp only [Option.getD_some]
      exact unitToChar_le_length utf16Size doc _
    · simp

theorem remove_insert_eq (doc : Doc) (s e : Nat) (t : Doc)
    (hsl : s ≤ doc.length) :
    ropeInsert (ropeRemove doc s e) s t = doc.take s ++ t ++ doc.drop e := by
  simp only [ropeInsert, ropeRemove]
  have hlen : (doc.take s).length = s := by
    simp only [List.length_take]
    omega
  have h1 : (doc.take s ++ doc.drop e).take s = doc.take s := by
    rw [List.take_append_of_le_length (le_of_eq hlen.symm)]
    rw [List.take_take]
    simp
  have h2 : (doc.take s ++ doc.drop e).drop s = doc.drop e := by
    rw [List.drop_left' hlen]
  rw [h1, h2]

theorem applyBatch_append (doc : Doc)
    (evs1 evs2 : List TextDocumentContentChangeEvent) :
    applyBatch doc (evs1 ++ evs2) =
      (applyBatch doc evs1).bind fun d => applyBatch d evs2 := by
  induction evs1 generalizing doc with
  | nil => simp [applyBatch]
  | cons ev rest ih =>
    simp only [List.cons_append, applyBatch]
    cases applyEvent doc ev with
    | none => rfl
    | some d => exact ih d

/-- C3: the event loop of `on_document_change` applies events in delivery
order, each against the text left by the previous one (the batch is the
composition of its prefixes); an incremental event decodes its endpoints
against the current text, removes the scalar range `[start, end)` and
inserts the replacement at `start`; a range-less event replaces the whole
text; and on the scenario store, the batch `{(0,5)-(0,5) → "!!"}` turns
`"hello\nworld"` into `"hello!!\nworld"` and changes the content hash. -/
theorem on_document_change_applies_events :
    (∀ doc evs1 evs2, applyBatch doc (evs1 ++ evs2) =
      (applyBatch doc evs1).bind fun d => applyBatch d evs2) ∧
    (∀ (doc : Doc) s e text,
      position_to_char_index doc s ≤ position_to_char_index doc e →
        applyEvent doc ⟨some (s, e), text⟩ =
          some (doc.take (position_to_char_index doc s) ++ text ++
            doc.drop (position_to_char_index doc e))) ∧
    (∀ (doc : Doc) text, applyEvent doc ⟨none, text⟩ = some text) ∧
    (exHello.on_document_change "a" [exHelloEvent] = some exHello' ∧
      exHello'.get_document "a" = "hello!!\nworld".toList ∧
      exHello'.calculate_hash "a" ≠ exHello.calculate_hash "a") := by
  refine ⟨applyBatch_append, fun doc s e text hse => ?_, fun doc text => rfl,
    rfl, by decide, by decide⟩
  simp only [applyEvent]
  rw [if_pos hse, remove_insert_eq _ _ _ _ (position_to_char_index_le doc s)]

/-- Witness for C3 at the scenario's incremental event on
`"hello\nworld"`. -/
theorem on_document_change_applies_events_witness :
    applyEvent ("hello\nworld".toList) ⟨some (⟨0, 5⟩, ⟨0, 5⟩), "!!".toList⟩ =
      some (("hello\nworld".toList).take
          (position_to_char_index ("hello\nworld".toList) ⟨0, 5⟩) ++
        "!!".toList ++
        ("hello\nworld".toList).drop
          (position_to_char_index ("hello\nworld".toList) ⟨0, 5⟩)) :=
  on_document_change_applies_events.2.1 ("hello\nworld".toList)
    ⟨0, 5⟩ ⟨0, 5⟩ ("!!".toList) (by decide)

/-! ## The command executor (`shell_impl_async`, `src/action.rs`)

The child process is external I/O, so it enters the model as explicit
behavior: how it handles its piped stdin, how many seconds it needs to
complete, its exit status and its output bytes.  The function has two
timed phases.  First, when `input` is present, the piped stdin handle is
taken (`ok_or_else` error exit), the input is written with an awaited
`write_all` — an await that sits *before* the timeout race and is bounded
by nothing — and the handle is dropped (EOF); a child that never reads its
input blocks this phase arbitrarily long, and one that exited without
reading fails it (broken pipe).  Second, `wait_with_output` is raced
against `tokio::time::timeout(5s, ·)`: that race is modelled by comparing
the child's completion time against the fixed bound, so the timeout branch
fires exactly when the child needs longer than five more seconds.  Nothing
in the timeout branch kills the child (`kill_on_drop` is never set), so
the child survives the timeout path. -/

/-- Rust `char::is_whitespace` (the Unicode `White_Space` property). -/
def isRustWhitespace (c : Char) : Bool :=
  let n := c.toNat
  (0x09 ≤ n && n ≤ 0x0D) || n == 0x20 || n == 0x85 || n == 0xA0 ||
    n == 0x1680 || (0x2000 ≤ n && n ≤ 0x200A) || n == 0x2028 ||
    n == 0x2029 || n == 0x202F || n == 0x205F || n == 0x3000

/-- Rust `str::trim_end`. -/
def trimEnd (s : List Char) : List Char :=
  (s.reverse.dropWhile isRustWhitespace).reverse

/-- A UTF-8 continuation byte. -/
def isCont (b : Nat) : Bool := 0x80 ≤ b && b < 0xC0

/-- Admissible first continuation byte after a three-byte lead `b`
(`0xE0` forbids overlong, `0xED` forbids surrogates). -/
def cont1ok3 (b b1 : Nat) : Bool :=
  if b == 0xE0 then 0xA0 ≤ b1 && b1 < 0xC0
  else if b == 0xED then 0x80 ≤ b1 && b1 < 0xA0
  else isCont b1

/-- Admissible first continuation byte after a four-byte lead `b`
(`0xF0` forbids overlong, `0xF4` caps at `U+10FFFF`). -/
def cont1ok4 (b b1 : Nat) : Bool :=
  if b == 0xF0 then 0x90 ≤ b1 && b1 < 0xC0
  else if b == 0xF4 then 0x80 ≤ b1 && b1 < 0x90
  else isCont b1

/-- Rust `str::from_utf8` validity of a byte stream. -/
def validUtf8 : List Nat → Bool
  | [] => true
  | b :: rest =>
    if b < 0x80 then validUtf8 rest
    else if b < 0xC2 then false
    else if b < 0xE0 then
      match rest with
      | b1 :: rest' => isCont b1 && validUtf8 rest'
      | [] => false
    else if b < 0xF0 then
      match rest with
      | b1 :: b2 :: rest' => cont1ok3 b b1 && isCont b2 && validUtf8 rest'
      | _ => false
    else if b < 0xF5 then
      match rest with
      | b1 :: b2 :: b3 :: rest' =>
        cont1ok4 b b1 && isCont b2 && isCont b3 && validUtf8 rest'
      | _ => false
    else false

/-- The replacement character `U+FFFD`. -/
def repChar : Char := Char.ofNat 0xFFFD

/-- Rust `String::from_utf8_lossy`: decode UTF-8, replacing each maximal
invalid subpart by one `U+FFFD` and re-examining the offending byte.  On
valid input this is exactly the UTF-8 decoding that `String::from_utf8`
performs. -/
def lossyDecode : List Nat → List Char
  | [] => []
  | b :: rest =>
    if b < 0x80 then Char.ofNat b :: lossyDecode rest
    else if b < 0xC2 then repChar :: lossyDecode rest
    else if b < 0xE0 then
      match rest with
      | b1 :: rest' =>
        if isCont b1 then
          Char.ofNat ((b - 0xC0) * 64 + (b1 - 0x80)) :: lossyDecode rest'
        else repChar :: lossyDecode (b1 :: rest')
      | [] => [repChar]
    else if b < 0xF0 then
      match rest with
      | b1 :: rest1 =>
        if cont1ok3 b b1 then
          match rest1 with
          | b2 :: rest2 =>
            if isCont b2 then
              Char.ofNat (((b - 0xE0) * 64 + (b1 - 0x80)) * 64 + (b2 - 0x80)) ::
                lossyDecode rest2
            else repChar :: lossyDecode (b2 :: rest2)
          | [] => [repChar]
        else repChar :: lossyDecode (b1 :: rest1)
      | [] => [repChar]
    else if b < 0xF5 then
      match rest with
      | b1 :: rest1 =>
        if cont1ok4 b b1 then
          match rest1 with
          | b2 :: rest2 =>
            if isCont b2 then
              match rest2 with
              | b3 :: rest3 =>
                if isCont b3 then
                  Char.ofNat ((((b - 0xF0) * 64 + (b1 - 0x80)) * 64 +
                    (b2 - 0x80)) * 64 + (b3 - 0x80)) :: lossyDecode rest3
                else repChar :: lossyDecode (b3 :: rest3)
              | [] => [repChar]
            else repChar :: lossyDecode (b2 :: rest2)
          | [] => [repChar]
        else repChar :: lossyDecode (b1 :: rest1)
      | [] => [repChar]
    else repChar :: lossyDecode rest
termination_by l => l.length
decreasing_by all_goals simp [List.length_cons] <;> omega

/-- The error taxonomy of `shell_impl_async` (contexts of the `anyhow`
errors). -/
inductive CommandError where
  | spawnFailure
  | stdinOpenFailure
  | stdinWriteFailure
  | timeout (elapsed : Nat)
  | nonZeroExit (stderrTrimmed : List Char)
deriving DecidableEq, Repr

/-- Observable behavior of the spawned child process.  The stdin fields
describe the untimed input phase of a run with piped input: `stdinOpenOk`
is whether `process.stdin.take()` yields a handle (the `ok_or_else` error
exit otherwise), `stdinWriteTime` is how many wall-clock seconds the
awaited `write_all` blocks — no timeout covers it — and `stdinWriteOk` is
whether that write succeeds (`false` models e.g. the broken pipe left by a
child that exited without reading its input).  `completionTime` counts the
seconds from the start of the timed wait until `wait_with_output` would
complete. -/
structure ChildBehavior where
  stdinOpenOk : Bool
  stdinWriteOk : Bool
  stdinWriteTime : Nat
  completionTime : Nat
  exitSuccess : Bool
  stdout : List Nat
  stderr : List Nat
deriving DecidableEq, Repr

/-- The fixed `timeout_sec` of `shell_impl_async`. -/
def timeout_sec : Nat := 5

/-- `shell_impl_async` (and its blocking wrapper `shell_impl`): spawn
(`spawnOk = false` models a spawn error); when `input` is present, open
the piped stdin, `write_all` the input (both are `?` error exits, and the
write is awaited outside any timeout) and drop the handle; then race
`wait_with_output` against the fixed 5-second timeout; a non-zero exit
becomes an error carrying the trimmed stderr; on success the stdout is
returned — trimmed after a clean UTF-8 decode, lossily decoded
(untrimmed) otherwise. -/
def shell_impl_async (spawnOk : Bool) (input : Option (List Char))
    (child : ChildBehavior) : Except CommandError (List Char) :=
  if !spawnOk then .error .spawnFailure
  else if input.isSome && !child.stdinOpenOk then .error .stdinOpenFailure
  else if input.isSome && !child.stdinWriteOk then .error .stdinWriteFailure
  else if timeout_sec < child.completionTime then .error (.timeout timeout_sec)
  else if !child.exitSuccess then
    .error (.nonZeroExit (trimEnd (lossyDecode child.stderr)))
  else if validUtf8 child.stdout then .ok (trimEnd (lossyDecode child.stdout))
  else .ok (lossyDecode child.stdout)

/-- Wall-clock seconds `shell_impl_async` spends between spawn and return:
with piped input the stdin-write phase contributes its full duration (no
timeout covers the `write_all` await), and the subsequent timed wait
contributes at most `timeout_sec`, because `tokio::time::timeout` abandons
`wait_with_output` at the bound. -/
def shellElapsed (input : Option (List Char)) (child : ChildBehavior) : Nat :=
  match input with
  | none => min child.completionTime timeout_sec
  | some _ =>
    if !child.stdinOpenOk then 0
    else if !child.stdinWriteOk then child.stdinWriteTime
    else child.stdinWriteTime + min child.completionTime timeout_sec

/-- Whether the timeout path terminates the child: `tokio::time::timeout`
merely drops the `wait_with_output` future, and `kill_on_drop` is never
set, so it does not. -/
def timeoutKillsChild : Bool := false

/-! ## C9: the five-second timeout covers only the timed wait -/

/-- C9 (amended): the fixed `timeout_sec = 5` bounds only the
wait-for-exit phase entered after the stdin write: that phase contributes
at most five seconds to the wall-clock wait, so a run without piped input
waits at most five seconds from spawn to completion, and a child whose
stdin phase succeeded but which has not completed within the bound yields
a `timeout` error reporting the five elapsed seconds, with the child not
killed by the timeout path; but the stdin `write_all` is awaited before
the timed race with no bound of its own, so with piped input the
spawn-to-completion wait exceeds every bound for a suitable child. -/
theorem shell_timeout_bound (input : Option (List Char))
    (child : ChildBehavior) :
    (shellElapsed input child ≤ child.stdinWriteTime + timeout_sec) ∧
    (input = none → shellElapsed input child ≤ timeout_sec) ∧
    ((input = none ∨ (child.stdinOpenOk = true ∧ child.stdinWriteOk = true)) →
      timeout_sec < child.completionTime →
        shell_impl_async true input child = .error (.timeout timeout_sec) ∧
          timeoutKillsChild = false) ∧
    (∀ t : Nat, ∃ c : ChildBehavior, t < shellElapsed (some ['x']) c) := by
  refine ⟨?_, ?_, ?_, ?_⟩
  · cases input with
    | none =>
      simp only [shellElapsed]
      omega
    | some i =>
      simp only [shellElapsed]
      split
      · omega
      · split <;> omega
  · rintro rfl
    simp only [shellElapsed]
    omega
  · intro hok ht
    refine ⟨?_, rfl⟩
    rcases hok with rfl | ⟨ho, hw⟩
    · simp only [shell_impl_async, Bool.not_true, Bool.false_eq_true, if_false,
        Option.isSome_none, Bool.false_and]
      rw [if_pos ht]
    · simp only [shell_impl_async, Bool.not_true, Bool.false_eq_true, if_false,
        ho, hw, Bool.and_false]
      rw [if_pos ht]
  · intro t
    refine ⟨⟨true, true, t + 1, 0, true, [], []⟩, ?_⟩
    simp only [shellElapsed, Bool.not_true, Bool.false_eq_true, if_false]
    omega

/-- Counterexample to C9 as stated: with piped input and a child that only
consumes it after 100 seconds, the run spends 101 seconds between spawn
and completion — far beyond the fixed five-second bound — and still
returns the child's output rather than a `timeout` error; a zero-exit
child that exited without reading its input instead yields a stdin-write
error after ten seconds, again not a `timeout`. -/
theorem shell_timeout_unbounded_counterexample :
    shellElapsed (some ['x']) ⟨true, true, 100, 1, true, [], []⟩ = 101 ∧
      shell_impl_async true (some ['x']) ⟨true, true, 100, 1, true, [], []⟩ =
        .ok [] ∧
      shellElapsed (some ['x']) ⟨true, false, 10, 0, true, [], []⟩ = 10 ∧
      shell_impl_async true (some ['x']) ⟨true, false, 10, 0, true, [], []⟩ =
        .error .stdinWriteFailure := by
  have h1 : lossyDecode [] = [] := by simp [lossyDecode]
  have h2 : validUtf8 [] = true := rfl
  have h3 : trimEnd ([] : List Char) = [] := rfl
  refine ⟨rfl, ?_, rfl, rfl⟩
  simp only [shell_impl_async, Bool.not_true, Bool.false_eq_true, if_false,
    Option.isSome_some, Bool.and_false]
  rw [if_neg (by decide), if_pos h2, h1, h3]

/-- Witness for the amended C9: a no-input run against a child needing 10
seconds (the spec's `sleep 10`) stays within the bound and yields the
timeout error, and the stdin phase escapes every bound. -/
theorem shell_timeout_bound_witness :
    (shellElapsed none ⟨true, true, 0, 10, true, [], []⟩ ≤
      (⟨true, true, 0, 10, true, [], []⟩ : ChildBehavior).stdinWriteTime +
        timeout_sec) ∧
    (shellElapsed none ⟨true, true, 0, 10, true, [], []⟩ ≤ timeout_sec) ∧
    (shell_impl_async true none ⟨true, true, 0, 10, true, [], []⟩ =
        .error (.timeout timeout_sec) ∧ timeoutKillsChild = false) ∧
    (∃ c : ChildBehavior, 1000 < shellElapsed (some ['x']) c) :=
  ⟨(shell_timeout_bound none ⟨true, true, 0, 10, true, [], []⟩).1,
    (shell_timeout_bound none ⟨true, true, 0, 10, true, [], []⟩).2.1 rfl,
    (shell_timeout_bound none ⟨true, true, 0, 10, true, [], []⟩).2.2.1
      (Or.inl rfl) (by decide),
    (shell_timeout_bound none ⟨true, true, 0, 10, true, [], []⟩).2.2.2 1000⟩

/-! ## C8: stdout handling on a zero exit -/

/-- C8 (amended): whenever the stdin phase does not fail — always the case
without piped input — and the child completes within the bound with exit
status zero, the run returns `Ok` and a decode failure is never fatal: the
payload is the UTF-8 decode of stdout with trailing whitespace trimmed
when stdout is valid UTF-8, and the lossy decode *without* trimming when
it is not.  (With piped input, a zero-exit child that exited without
reading its stdin yields a stdin-write error instead — see the
counterexample.) -/
theorem shell_exit_zero_ok (input : Option (List Char))
    (child : ChildBehavior)
    (hstdin : input = none ∨
      (child.stdinOpenOk = true ∧ child.stdinWriteOk = true))
    (ht : child.completionTime ≤ timeout_sec)
    (hs : child.exitSuccess = true) :
    shell_impl_async true input child =
      .ok (if validUtf8 child.stdout then trimEnd (lossyDecode child.stdout)
        else lossyDecode child.stdout) := by
  have hmain : shell_impl_async true input child =
      (if timeout_sec < child.completionTime then
        (.error (.timeout timeout_sec) : Except CommandError (List Char))
      else if !child.exitSuccess then
        .error (.nonZeroExit (trimEnd (lossyDecode child.stderr)))
      else if validUtf8 child.stdout then .ok (trimEnd (lossyDecode child.stdout))
      else .ok (lossyDecode child.stdout)) := by
    rcases hstdin with rfl | ⟨ho, hw⟩
    · simp only [shell_impl_async, Bool.not_true, Bool.false_eq_true, if_false,
        Option.isSome_none, Bool.false_and]
    · simp only [shell_impl_async, Bool.not_true, Bool.false_eq_true, if_false,
        ho, hw, Bool.and_false]
  rw [hmain, if_neg (by omega), if_neg (by simp [hs])]
  by_cases hv : validUtf8 child.stdout
  · rw [if_pos hv, if_pos hv]
  · rw [if_neg hv, if_neg hv]

/-- Counterexample to C8 as stated: a zero-exit child whose stdout is the
invalid UTF-8 byte `0xFF` followed by a newline yields the lossy decode
`"�\n"` with the trailing newline intact — the lossy path skips
`trim_end`, so the result is not "stdout with trailing whitespace
trimmed"; and with piped input, a zero-exit child that exited without
reading its stdin yields `Err` (the stdin-write failure), not `Ok` at
all. -/
theorem shell_lossy_untrimmed_counterexample :
    (shell_impl_async true none ⟨true, true, 0, 1, true, [0xff, 0x0a], []⟩ =
        .ok [repChar, '\n'] ∧
      trimEnd [repChar, '\n'] ≠ [repChar, '\n']) ∧
      shell_impl_async true (some ['x'])
          ⟨true, false, 0, 1, true, [104], []⟩ =
        .error .stdinWriteFailure := by
  have h1 : lossyDecode [0xff, 0x0a] = [repChar, '\n'] := by
    simp [lossyDecode]
  have h2 : validUtf8 [0xff, 0x0a] = false := by decide
  refine ⟨⟨?_, by decide⟩, rfl⟩
  simp [shell_impl_async, timeout_sec, h1, h2]

/-- Witness for the amended C8: without piped input, the valid-UTF-8
stdout `"hi\n"` comes back trimmed; with piped input consumed normally,
the invalid stdout `0xFF 0x0A` comes back lossily decoded and
untrimmed. -/
theorem shell_exit_zero_ok_witness :
    (shell_impl_async true none ⟨true, true, 0, 1, true, [104, 105, 10], []⟩ =
      .ok (if validUtf8 [104, 105, 10] then
        trimEnd (lossyDecode [104, 105, 10]) else lossyDecode [104, 105, 10])) ∧
    (shell_impl_async true (some ['x'])
        ⟨true, true, 2, 1, true, [0xff, 0x0a], []⟩ =
      .ok (if validUtf8 [0xff, 0x0a] then
        trimEnd (lossyDecode [0xff, 0x0a]) else lossyDecode [0xff, 0x0a])) :=
  ⟨shell_exit_zero_ok none ⟨true, true, 0, 1, true, [104, 105, 10], []⟩
      (Or.inl rfl) (by decide) rfl,
    shell_exit_zero_ok (some ['x']) ⟨true, true, 2, 1, true, [0xff, 0x0a], []⟩
      (Or.inr ⟨rfl, rfl⟩) (by decide) rfl⟩

/-! ## C10: resolving an uncached action panics -/

/-- The observable outcome of `code_action_resolve` on a cache hit: the
action, possibly with a workspace edit attached. -/
structure ResolvedAction where
  title : String
  hasEdit : Bool
deriving DecidableEq, Repr

/-- `code_action_resolve` (`src/lsp.rs`): look the incoming action's title
up in the resolution cache and `expect("Unkown Action")` — a panic — when
no record exists; on a hit, run the action's command (the shell outcome is
passed in, being external I/O) and attach an edit exactly when it yields
non-empty output. -/
def code_action_resolve (st : State) (title : String)
    (shellOutput : Option (List Char)) : Except Panic ResolvedAction :=
  match st.get_action title with
  | none => .error .panic
  | some _data =>
    match shellOutput with
    | some out => if out.isEmpty then .ok ⟨title, false⟩ else .ok ⟨title, true⟩
    | none => .ok ⟨title, false⟩

/-- C10: whenever the incoming action's title has no record in the
action-resolution cache — in particular after `clean` (document close) or
`clear_action` (the start of a new listing) emptied it — the resolve
handler panics instead of returning an error response or the unmodified
action. -/
theorem code_action_resolve_panics :
    (∀ (st : State) (title : String) (sh : Option (List Char)),
      st.get_action title = none →
        code_action_resolve st title sh = .error .panic) ∧
    (∀ (st : State) (uri : Url) (title : String) (sh : Option (List Char)),
      code_action_resolve (st.clean uri) title sh = .error .panic) ∧
    (∀ (st : State) (title : String) (sh : Option (List Char)),
      code_action_resolve st.clear_action title sh = .error .panic) := by
  refine ⟨fun st title sh h => ?_, fun st uri title sh => rfl,
    fun st title sh => rfl⟩
  simp [code_action_resolve, h]

/-- Witness for C10: resolving any title against the empty store's empty
cache panics. -/
theorem code_action_resolve_panics_witness :
    code_action_resolve State.init "make test" none = .error .panic :=
  code_action_resolve_panics.1 State.init "make test" none rfl

end HxLsp
